import Mathlib

/-!
Verification of the periodic geometry and symmetry classification engine of
the pyxtal operations module (src/pyxtal/operations.py).

Modelling conventions: python floating point arithmetic is modelled by the
real numbers, a numpy 3 vector by a function from Fin 3 to the reals, and a
3 by 3 numpy matrix by the Mathlib matrix type on Fin 3.  Scipy cdist with
the default euclidean metric yields, for a pair of rows, the square root of
the dot product of the difference vector with itself.  Fallible python code
is modelled with Except, and the in place mutation of a caller supplied
array is modelled by returning the final contents of that array explicitly.
-/

open Matrix

abbrev V3 := Fin 3 → ℝ

abbrev M3 := Matrix (Fin 3) (Fin 3) ℝ

/-- Periodic boundary condition flags: one boolean per lattice axis,
mirroring the python lists such as [1,1,1] and [0,0,1]. -/
abbrev PBCFlags := Fin 3 → Bool

/-- The all zero flag list [0,0,0]: no axis is periodic. -/
def noPBC : PBCFlags := fun _ => false

/-- Offsets considered along one axis by create_matrix: -1, 0 and 1 for a
periodic axis, only 0 for a non periodic one (operations.py lines 344-353). -/
noncomputable def axisOffsets (b : Bool) : List ℝ := if b then [-1, 0, 1] else [0]

/-- Translation of create_matrix (operations.py lines 329-358): the list of
offset vectors [i,j,k] with i, j, k running over the per axis offsets, in
the order produced by the three nested loops. -/
noncomputable def create_matrix (p : PBCFlags) : List V3 :=
  (axisOffsets (p 0)).flatMap fun i =>
    (axisOffsets (p 1)).flatMap fun j =>
      (axisOffsets (p 2)).map fun k => ![i, j, k]

/-- Translation of filtered_coords (operations.py lines 360-380) on a single
fractional vector: the filter subtracts floor(value) times the flag of the
axis, so periodic components land in the interval [0,1) and non periodic
components pass through unchanged. -/
noncomputable def filtered_coords (p : PBCFlags) (v : V3) : V3 :=
  fun i => v i - (⌊v i⌋ : ℝ) * (if p i then 1 else 0)

/-- Minimum of a list of reals, with 0 for the empty list.  The python code
only ever takes np.min of a nonempty array. -/
noncomputable def listMinD (l : List ℝ) : ℝ :=
  match l with
  | [] => 0
  | a :: t => t.foldl min a

/-- Euclidean norm of a 3 vector, as computed by np.linalg.norm and by scipy
cdist against the origin. -/
noncomputable def vnorm (v : V3) : ℝ := Real.sqrt (v ⬝ᵥ v)

/-- Translation of distance (operations.py lines 155-175): filter the
fractional displacement, add every offset vector of create_matrix, map the
rows through the lattice, and take the least euclidean norm of a row. -/
noncomputable def distance (xyz : V3) (lattice : M3) (p : PBCFlags) : ℝ :=
  listMinD ((create_matrix p).map fun t =>
    vnorm (Matrix.vecMul (t + filtered_coords p xyz) lattice))

lemma foldl_min_mem (l : List ℝ) : ∀ a : ℝ, l.foldl min a ∈ a :: l := by
  induction l with
  | nil => intro a; simp
  | cons b t ih =>
    intro a
    simp only [List.foldl_cons]
    rcases List.mem_cons.mp (ih (min a b)) with h1 | h1
    · rcases min_choice a b with hm | hm
      · rw [h1, hm]; exact List.mem_cons_self _ _
      · rw [h1, hm]; exact List.mem_cons.mpr (Or.inr (List.mem_cons_self _ _))
    · exact List.mem_cons.mpr (Or.inr (List.mem_cons.mpr (Or.inr h1)))

lemma foldl_min_le (l : List ℝ) : ∀ a x : ℝ, x ∈ a :: l → l.foldl min a ≤ x := by
  induction l with
  | nil =>
    intro a x hx
    have : x = a := by simpa using hx
    simp [this]
  | cons b t ih =>
    intro a x hx
    simp only [List.foldl_cons]
    rcases List.mem_cons.mp hx with h1 | h1
    · rw [h1]
      exact le_trans (ih (min a b) (min a b) (List.mem_cons_self _ _)) (min_le_left a b)
    · rcases List.mem_cons.mp h1 with h2 | h2
      · rw [h2]
        exact le_trans (ih (min a b) (min a b) (List.mem_cons_self _ _)) (min_le_right a b)
      · exact ih (min a b) x (List.mem_cons.mpr (Or.inr h2))

lemma le_foldl_min (l : List ℝ) : ∀ a c : ℝ, (∀ x ∈ a :: l, c ≤ x) → c ≤ l.foldl min a := by
  induction l with
  | nil => intro a c h; exact h a (List.mem_cons_self _ _)
  | cons b t ih =>
    intro a c h
    simp only [List.foldl_cons]
    refine ih (min a b) c ?_
    intro x hx
    rcases List.mem_cons.mp hx with h1 | h1
    · rcases min_choice a b with hm | hm
      · rw [h1, hm]; exact h a (List.mem_cons_self _ _)
      · rw [h1, hm]; exact h b (List.mem_cons.mpr (Or.inr (List.mem_cons_self _ _)))
    · exact h x (List.mem_cons.mpr (Or.inr (List.mem_cons.mpr (Or.inr h1))))

lemma listMinD_mem {l : List ℝ} (h : l ≠ []) : listMinD l ∈ l := by
  cases l with
  | nil => exact absurd rfl h
  | cons a t => exact foldl_min_mem t a

lemma listMinD_le {l : List ℝ} {x : ℝ} (h : x ∈ l) : listMinD l ≤ x := by
  cases l with
  | nil => simp at h
  | cons a t => exact foldl_min_le t a x h

lemma le_listMinD {l : List ℝ} {c : ℝ} (hne : l ≠ []) (h : ∀ x ∈ l, c ≤ x) :
    c ≤ listMinD l := by
  cases l with
  | nil => exact absurd rfl hne
  | cons a t => exact le_foldl_min t a c h

lemma listMinD_eq_of_mem_iff {l1 l2 : List ℝ} (h1 : l1 ≠ []) (h2 : l2 ≠ [])
    (s12 : ∀ x ∈ l1, x ∈ l2) (s21 : ∀ x ∈ l2, x ∈ l1) :
    listMinD l1 = listMinD l2 := by
  have a1 : listMinD l1 ≤ listMinD l2 := listMinD_le (s21 _ (listMinD_mem h2))
  have a2 : listMinD l2 ≤ listMinD l1 := listMinD_le (s12 _ (listMinD_mem h1))
  exact le_antisymm a1 a2

lemma mem_axisOffsets_zero (b : Bool) : (0 : ℝ) ∈ axisOffsets b := by
  cases b <;> simp [axisOffsets]

lemma mem_axisOffsets_int {b : Bool} {x : ℝ} (h : x ∈ axisOffsets b) :
    ∃ n : ℤ, x = n := by
  cases b <;> simp [axisOffsets] at h
  · exact ⟨0, by simp [h]⟩
  · rcases h with h | h | h
    · exact ⟨-1, by simp [h]⟩
    · exact ⟨0, by simp [h]⟩
    · exact ⟨1, by simp [h]⟩

lemma mem_axisOffsets_false {x : ℝ} (h : x ∈ axisOffsets false) : x = 0 := by
  simpa [axisOffsets] using h

lemma mem_axisOffsets_eq_zero {b : Bool} {x : ℝ} (h : x ∈ axisOffsets b)
    (hb : b = false) : x = 0 := by
  subst hb
  exact mem_axisOffsets_false h

lemma neg_mem_axisOffsets {b : Bool} {x : ℝ} (h : x ∈ axisOffsets b) :
    -x ∈ axisOffsets b := by
  cases b <;> simp [axisOffsets] at h ⊢
  · simp [h]
  · rcases h with h | h | h <;> simp [h]

lemma mem_create_matrix_iff {p : PBCFlags} {t : V3} :
    t ∈ create_matrix p ↔
      ∃ a ∈ axisOffsets (p 0), ∃ b ∈ axisOffsets (p 1), ∃ c ∈ axisOffsets (p 2),
        t = ![a, b, c] := by
  simp only [create_matrix, List.mem_flatMap, List.mem_map]
  constructor
  · rintro ⟨a, ha, b, hb, c, hc, rfl⟩
    exact ⟨a, ha, b, hb, c, hc, rfl⟩
  · rintro ⟨a, ha, b, hb, c, hc, rfl⟩
    exact ⟨a, ha, b, hb, c, hc, rfl⟩

lemma zero_mem_create_matrix (p : PBCFlags) : (0 : V3) ∈ create_matrix p := by
  refine mem_create_matrix_iff.mpr
    ⟨0, mem_axisOffsets_zero _, 0, mem_axisOffsets_zero _, 0, mem_axisOffsets_zero _, ?_⟩
  funext i
  fin_cases i <;> simp

lemma create_matrix_ne_nil (p : PBCFlags) : create_matrix p ≠ [] :=
  List.ne_nil_of_mem (zero_mem_create_matrix p)

lemma neg_mem_create_matrix {p : PBCFlags} {t : V3} (h : t ∈ create_matrix p) :
    -t ∈ create_matrix p := by
  rcases mem_create_matrix_iff.mp h with ⟨a, ha, b, hb, c, hc, rfl⟩
  refine mem_create_matrix_iff.mpr
    ⟨-a, neg_mem_axisOffsets ha, -b, neg_mem_axisOffsets hb, -c, neg_mem_axisOffsets hc, ?_⟩
  funext i
  fin_cases i <;> simp

lemma filtered_coords_idem (p : PBCFlags) (v : V3) :
    filtered_coords p (filtered_coords p v) = filtered_coords p v := by
  funext i
  by_cases h : p i
  · have hfl : ⌊v i - ((⌊v i⌋ : ℤ) : ℝ)⌋ = 0 := by
      rw [Int.floor_sub_int]; omega
    simp [filtered_coords, h, hfl]
  · simp [filtered_coords, h]

/-- Claim C1: for every lattice, periodicity flag vector and fractional
displacement d, the minimum image distance of d equals the minimum image
distance of the folded displacement (in particular the stated inequality
holds), both equal the minimum over the enumerated offset set of the
euclidean norms of the mapped candidate rows, that minimum is attained by
one of the candidates and bounds all of them (the norm of the nearest
periodic image), and every candidate row is a genuine periodic image of d:
it differs from d by a vector with integer components that vanish on non
periodic axes. -/
theorem C1_distance_fold_invariant (d : V3) (L : M3) (p : PBCFlags) :
    distance d L p = distance (filtered_coords p d) L p ∧
    distance d L p ≤ distance (filtered_coords p d) L p ∧
    distance d L p
      = listMinD ((create_matrix p).map fun t =>
          vnorm (Matrix.vecMul (t + filtered_coords p d) L)) ∧
    (∃ t ∈ create_matrix p,
      distance d L p = vnorm (Matrix.vecMul (t + filtered_coords p d) L) ∧
      ∀ t2 ∈ create_matrix p,
        distance d L p ≤ vnorm (Matrix.vecMul (t2 + filtered_coords p d) L)) ∧
    (∀ t ∈ create_matrix p, ∃ w : V3,
      (∀ i, (∃ n : ℤ, w i = n) ∧ (p i = false → w i = 0)) ∧
      filtered_coords p d + t = d + w) := by
  have hfold : distance (filtered_coords p d) L p = distance d L p := by
    unfold distance
    rw [filtered_coords_idem]
  refine ⟨hfold.symm, hfold.symm.le, rfl, ?_, ?_⟩
  · have hne : ((create_matrix p).map fun t =>
        vnorm (Matrix.vecMul (t + filtered_coords p d) L)) ≠ [] := by
      simp [create_matrix_ne_nil p]
    have hmem := listMinD_mem hne
    rcases List.mem_map.mp hmem with ⟨t, ht, hval⟩
    refine ⟨t, ht, hval.symm, ?_⟩
    intro t2 ht2
    exact listMinD_le (List.mem_map.mpr ⟨t2, ht2, rfl⟩)
  · intro t ht
    rcases mem_create_matrix_iff.mp ht with ⟨a, ha, b, hb, c, hc, rfl⟩
    refine ⟨fun i => ![a, b, c] i - (⌊d i⌋ : ℝ) * (if p i then 1 else 0), ?_, ?_⟩
    · intro i
      have hint : ∃ n : ℤ, ![a, b, c] i = n := by
        fin_cases i
        · simpa using mem_axisOffsets_int ha
        · simpa using mem_axisOffsets_int hb
        · simpa using mem_axisOffsets_int hc
      rcases hint with ⟨n, hn⟩
      constructor
      · by_cases hp : p i
        · refine ⟨n - ⌊d i⌋, ?_⟩
          simp only [hn, hp, if_true]
          push_cast
          ring
        · exact ⟨n, by simp [hn, hp]⟩
      · intro hp
        have hzero : ![a, b, c] i = 0 := by
          fin_cases i
          · simpa using mem_axisOffsets_eq_zero ha hp
          · simpa using mem_axisOffsets_eq_zero hb hp
          · simpa using mem_axisOffsets_eq_zero hc hp
        simp [hzero, hp]
    · funext i
      simp only [filtered_coords, Pi.add_apply]
      ring

/-- Scipy cdist entry for the default euclidean metric: the euclidean norm
of the difference of the two rows. -/
noncomputable def euclideanMetric (a b : V3) : ℝ := Real.sqrt ((a - b) ⬝ᵥ (a - b))

/-- Translation of distance_matrix (operations.py lines 210-255).  A lattice
equal to the identity is replaced by None in the source, which skips the
cartesian mapping; with periodic flags both point lists are filtered, the
second is mapped through the lattice once, and for every offset vector the
translated first list is mapped through the lattice and compared with cdist;
np.apply_along_axis with np.min over the offset axis is expressed here per
entry as the least offset candidate.  Without periodic flags a single cdist
of the (possibly lattice mapped) lists is returned. -/
noncomputable def distance_matrix (points1 points2 : List V3) (lattice : M3)
    (p : PBCFlags) (metric : V3 → V3 → ℝ) : List (List ℝ) :=
  if lattice = 1 then
    if p ≠ noPBC then
      (points1.map (filtered_coords p)).map fun a =>
        (points2.map (filtered_coords p)).map fun b =>
          listMinD ((create_matrix p).map fun t => metric (a + t) b)
    else
      points1.map fun a => points2.map fun b => metric a b
  else
    if p ≠ noPBC then
      (points1.map (filtered_coords p)).map fun a =>
        ((points2.map (filtered_coords p)).map fun v => Matrix.vecMul v lattice).map fun b =>
          listMinD ((create_matrix p).map fun t => metric (Matrix.vecMul (a + t) lattice) b)
    else
      (points1.map fun v => Matrix.vecMul v lattice).map fun a =>
        (points2.map fun v => Matrix.vecMul v lattice).map fun b => metric a b

lemma getD_map_lt {α β : Type} (g : α → β) (l : List α) (i : ℕ) (hi : i < l.length)
    (d : β) (d0 : α) : (l.map g).getD i d = g (l.getD i d0) := by
  rw [List.getD_eq_getElem (l.map g) d (by simpa using hi),
    List.getD_eq_getElem l d0 hi, List.getElem_map]

lemma nested_map_getD (f : V3 → V3 → ℝ) (l1 l2 : List V3) (i j : ℕ)
    (hi : i < l1.length) (hj : j < l2.length) :
    ((l1.map fun a => l2.map fun b => f a b).getD i []).getD j 0
      = f (l1.getD i 0) (l2.getD j 0) := by
  rw [getD_map_lt (fun a => l2.map fun b => f a b) l1 i hi [] 0]
  rw [getD_map_lt (fun b => f (l1.getD i 0) b) l2 j hj 0 0]

lemma euclideanMetric_comm (a b : V3) : euclideanMetric a b = euclideanMetric b a := by
  unfold euclideanMetric
  rw [show a - b = -(b - a) from (neg_sub b a).symm]
  rw [Matrix.neg_dotProduct, Matrix.dotProduct_neg, neg_neg]

lemma euclideanMetric_flip (g : V3 → V3) (hadd : ∀ x y, g (x + y) = g x + g y)
    (hneg : ∀ x, g (-x) = -(g x)) (a b t : V3) :
    euclideanMetric (g (a + t)) (g b) = euclideanMetric (g (b + -t)) (g a) := by
  unfold euclideanMetric
  have h : g (a + t) - g b = -(g (b + -t) - g a) := by
    rw [hadd, hadd, hneg]
    abel
  rw [h, Matrix.neg_dotProduct, Matrix.dotProduct_neg, neg_neg]

lemma minT_swap (g : V3 → V3) (hadd : ∀ x y, g (x + y) = g x + g y)
    (hneg : ∀ x, g (-x) = -(g x)) (p : PBCFlags) (a b : V3) :
    listMinD ((create_matrix p).map fun t => euclideanMetric (g (a + t)) (g b))
      = listMinD ((create_matrix p).map fun t => euclideanMetric (g (b + t)) (g a)) := by
  have hne1 : ((create_matrix p).map fun t => euclideanMetric (g (a + t)) (g b)) ≠ [] := by
    simp [create_matrix_ne_nil p]
  have hne2 : ((create_matrix p).map fun t => euclideanMetric (g (b + t)) (g a)) ≠ [] := by
    simp [create_matrix_ne_nil p]
  refine listMinD_eq_of_mem_iff hne1 hne2 ?_ ?_
  · intro x hx
    rcases List.mem_map.mp hx with ⟨t, ht, rfl⟩
    refine List.mem_map.mpr ⟨-t, neg_mem_create_matrix ht, ?_⟩
    exact (euclideanMetric_flip g hadd hneg a b t).symm
  · intro x hx
    rcases List.mem_map.mp hx with ⟨t, ht, rfl⟩
    refine List.mem_map.mpr ⟨-t, neg_mem_create_matrix ht, ?_⟩
    exact (euclideanMetric_flip g hadd hneg b a t).symm

/-- Claim C5: the distance matrix is symmetric under swapping the two point
sets, entry (i,j) computed from the pair (A,B) equals entry (j,i) computed
from the pair (B,A), for every lattice and every periodicity flag vector,
with the default euclidean metric. -/
theorem C5_distance_matrix_swap (A B : List V3) (L : M3) (p : PBCFlags) (i j : ℕ)
    (hi : i < A.length) (hj : j < B.length) :
    ((distance_matrix A B L p euclideanMetric).getD i []).getD j 0
      = ((distance_matrix B A L p euclideanMetric).getD j []).getD i 0 := by
  have hiA : i < (A.map (filtered_coords p)).length := by simpa using hi
  have hjB : j < (B.map (filtered_coords p)).length := by simpa using hj
  have hiAL : i < (A.map fun v => Matrix.vecMul v L).length := by simpa using hi
  have hjBL : j < (B.map fun v => Matrix.vecMul v L).length := by simpa using hj
  have hiAFL : i < ((A.map (filtered_coords p)).map fun v => Matrix.vecMul v L).length := by
    simpa using hi
  have hjBFL : j < ((B.map (filtered_coords p)).map fun v => Matrix.vecMul v L).length := by
    simpa using hj
  unfold distance_matrix
  by_cases hL : L = 1
  · rw [if_pos hL, if_pos hL]
    by_cases hp : p ≠ noPBC
    · rw [if_pos hp, if_pos hp]
      rw [nested_map_getD _ _ _ _ _ hiA hjB, nested_map_getD _ _ _ _ _ hjB hiA]
      rw [getD_map_lt (filtered_coords p) A i hi 0 0,
        getD_map_lt (filtered_coords p) B j hj 0 0]
      exact minT_swap id (fun x y => rfl) (fun x => rfl)
        p (filtered_coords p (A.getD i 0)) (filtered_coords p (B.getD j 0))
    · rw [if_neg hp, if_neg hp]
      rw [nested_map_getD _ _ _ _ _ hi hj, nested_map_getD _ _ _ _ _ hj hi]
      exact euclideanMetric_comm _ _
  · rw [if_neg hL, if_neg hL]
    by_cases hp : p ≠ noPBC
    · rw [if_pos hp, if_pos hp]
      rw [nested_map_getD _ _ _ _ _ hiA hjBFL, nested_map_getD _ _ _ _ _ hjB hiAFL]
      rw [getD_map_lt (fun v => Matrix.vecMul v L) (A.map (filtered_coords p)) i hiA 0 0,
        getD_map_lt (fun v => Matrix.vecMul v L) (B.map (filtered_coords p)) j hjB 0 0]
      rw [getD_map_lt (filtered_coords p) A i hi 0 0,
        getD_map_lt (filtered_coords p) B j hj 0 0]
      exact minT_swap (fun v => Matrix.vecMul v L)
        (fun x y => Matrix.add_vecMul L x y) (fun x => Matrix.neg_vecMul x L)
        p (filtered_coords p (A.getD i 0)) (filtered_coords p (B.getD j 0))
    · rw [if_neg hp, if_neg hp]
      rw [nested_map_getD _ _ _ _ _ hiAL hjBL, nested_map_getD _ _ _ _ _ hjBL hiAL]
      rw [getD_map_lt (fun v => Matrix.vecMul v L) A i hi 0 0,
        getD_map_lt (fun v => Matrix.vecMul v L) B j hj 0 0]
      exact euclideanMetric_comm _ _

/-- Witness for claim C5 at a concrete one point pair, a fully periodic
identity lattice, and indices 0, 0. -/
theorem C5_witness :
    ((distance_matrix [![0, 0, 0]] [![1/2, 0, 0]] 1 (fun _ => true) euclideanMetric).getD 0 []).getD 0 0
      = ((distance_matrix [![1/2, 0, 0]] [![0, 0, 0]] 1 (fun _ => true) euclideanMetric).getD 0 []).getD 0 0 :=
  C5_distance_matrix_swap [![0, 0, 0]] [![1/2, 0, 0]] 1 (fun _ => true) 0 0
    (by simp) (by simp)

open Classical in
/-- Translation of verify_distances (operations.py lines 71-99).  The
covalent radius lookup Element(specie).covalent_radius is an external
capability (the module does not even import Element), so it is a function
parameter here.  The python loops return False at the first pair with
distance below tolerance and True otherwise; List.all has the same value. -/
noncomputable def verify_distances {S : Type} [Inhabited S] (coordinates : List V3)
    (species : List S) (lattice : M3) (covalent_radius : S → ℝ) (factor : ℝ)
    (p : PBCFlags) : Bool :=
  (List.range coordinates.length).all fun i =>
    (List.range coordinates.length).all fun j =>
      if i < j then
        if distance (coordinates.getD j 0 - coordinates.getD i 0) lattice p <
            factor * (1 / 2) *
              (covalent_radius (species.getD i default) + covalent_radius (species.getD j default))
        then false
        else true
      else true

/-- The unordered index pairs of the upper triangle, in the order the nested
loops of verify_distances visit them. -/
def upperPairs (n : ℕ) : List (ℕ × ℕ) :=
  (List.range n).flatMap fun i => ((List.range n).filter fun j => i < j).map fun j => (i, j)

lemma mem_upperPairs {n i j : ℕ} : (i, j) ∈ upperPairs n ↔ i < j ∧ j < n := by
  simp only [upperPairs, List.mem_flatMap, List.mem_map, List.mem_filter, List.mem_range,
    decide_eq_true_eq, Prod.mk.injEq]
  constructor
  · rintro ⟨i2, hi2, j2, ⟨hj2n, hij2⟩, rfl, rfl⟩
    exact ⟨hij2, hj2n⟩
  · rintro ⟨hij, hjn⟩
    exact ⟨i, by omega, j, ⟨hjn, hij⟩, rfl, rfl⟩

lemma upperPairs_nodup (n : ℕ) : (upperPairs n).Nodup := by
  unfold upperPairs
  refine List.nodup_flatMap.mpr ⟨?_, ?_⟩
  · intro i _
    refine List.Nodup.map ?_ (List.Nodup.filter _ (List.nodup_range n))
    intro a b hab
    exact (Prod.ext_iff.mp hab).2
  · refine List.Pairwise.imp ?_ (List.pairwise_lt_range n)
    intro i j hij a ha1 ha2
    rcases List.mem_map.mp ha1 with ⟨j1, _, rfl⟩
    rcases List.mem_map.mp ha2 with ⟨j2, _, h⟩
    exact absurd ((Prod.ext_iff.mp h).1) (by omega)

lemma chk_eq_true_iff {c q : Prop} [Decidable c] [Decidable q] :
    ((if c then (if q then false else true) else true) = true) ↔ (c → ¬ q) := by
  by_cases h1 : c
  · by_cases h2 : q <;> simp [h1, h2]
  · simp [h1]

lemma bool_eq_of_iff {b1 b2 : Bool} (h : b1 = true ↔ b2 = true) : b1 = b2 := by
  cases hb1 : b1 <;> cases hb2 : b2 <;> simp_all

/-- Claim C8: verify_distances checks exactly the upper triangle pairs
(i, j) with i less than j, each exactly once, comparing one minimum image
distance per pair with the tolerance factor times half the sum of the two
covalent radii; it is false exactly when some pair violates and true when
no pair violates. -/
theorem C8_verify_distances_correct {S : Type} [Inhabited S] (coordinates : List V3)
    (species : List S) (lattice : M3) (covalent_radius : S → ℝ) (factor : ℝ)
    (p : PBCFlags) :
    (upperPairs coordinates.length).Nodup ∧
    (∀ i j : ℕ, (i, j) ∈ upperPairs coordinates.length ↔ i < j ∧ j < coordinates.length) ∧
    (verify_distances coordinates species lattice covalent_radius factor p
      = (upperPairs coordinates.length).all fun q =>
          if distance (coordinates.getD q.2 0 - coordinates.getD q.1 0) lattice p <
              factor * (1 / 2) *
                (covalent_radius (species.getD q.1 default) + covalent_radius (species.getD q.2 default))
          then false else true) ∧
    (verify_distances coordinates species lattice covalent_radius factor p = true ↔
      ∀ i j : ℕ, i < j → j < coordinates.length →
        ¬ (distance (coordinates.getD j 0 - coordinates.getD i 0) lattice p <
            factor * (1 / 2) *
              (covalent_radius (species.getD i default) + covalent_radius (species.getD j default)))) ∧
    (verify_distances coordinates species lattice covalent_radius factor p = false ↔
      ∃ i j : ℕ, i < j ∧ j < coordinates.length ∧
        distance (coordinates.getD j 0 - coordinates.getD i 0) lattice p <
          factor * (1 / 2) *
            (covalent_radius (species.getD i default) + covalent_radius (species.getD j default))) := by
  classical
  set n := coordinates.length with hn
  set P : ℕ → ℕ → Prop := fun i j =>
    distance (coordinates.getD j 0 - coordinates.getD i 0) lattice p <
      factor * (1 / 2) *
        (covalent_radius (species.getD i default) + covalent_radius (species.getD j default))
    with hP
  have htrue : verify_distances coordinates species lattice covalent_radius factor p = true ↔
      ∀ i j : ℕ, i < j → j < n → ¬ P i j := by
    unfold verify_distances
    rw [List.all_eq_true]
    constructor
    · intro h i j hij hjn
      have hin : i < n := lt_trans hij hjn
      have h2 := h i (List.mem_range.mpr hin)
      rw [List.all_eq_true] at h2
      have h3 := h2 j (List.mem_range.mpr hjn)
      exact (chk_eq_true_iff.mp h3) hij
    · intro h i hi
      rw [List.all_eq_true]
      intro j hj
      refine chk_eq_true_iff.mpr ?_
      intro hij
      exact h i j hij (List.mem_range.mp hj)
  refine ⟨upperPairs_nodup n, fun i j => mem_upperPairs, ?_, htrue, ?_⟩
  · refine bool_eq_of_iff ?_
    rw [htrue, List.all_eq_true]
    constructor
    · intro h q hq
      rcases q with ⟨i, j⟩
      rcases mem_upperPairs.mp hq with ⟨hij, hjn⟩
      have hv := h i j hij hjn
      simp only [hP] at hv
      exact if_neg hv
    · intro h i j hij hjn
      intro hv
      have h2 := h (i, j) (mem_upperPairs.mpr ⟨hij, hjn⟩)
      have h3 : (if distance (coordinates.getD j 0 - coordinates.getD i 0) lattice p <
          factor * (1 / 2) *
            (covalent_radius (species.getD i default) + covalent_radius (species.getD j default))
          then false else true) = true := h2
      rw [if_pos hv] at h3
      exact Bool.false_ne_true h3
  · rw [Bool.eq_false_iff, Ne, htrue]
    push_neg
    constructor
    · rintro ⟨i, j, hij, hjn, hv⟩
      exact ⟨i, j, hij, hjn, hv⟩
    · rintro ⟨i, j, hij, hjn, hv⟩
      exact ⟨i, j, hij, hjn, hv⟩

lemma euclideanMetric_self (a : V3) : euclideanMetric a a = 0 := by
  simp [euclideanMetric]

lemma sqrt_eval {q r : ℝ} (hr : 0 ≤ r) (h : r ^ 2 = q) : Real.sqrt q = r := by
  rw [← h, Real.sqrt_sq hr]

open Classical in
/-- Translation of find_short_dist (operations.py lines 257-303).  The
matrix d is the self distance matrix; np.where(d <= tol) scans the matrix in
row major order, so ijs[0] (the row values of matching positions) and
ijs[1] (the column values) are modelled by the row major list of matching
index pairs; np.unique of the row values sorts and removes duplicates,
which for this nondecreasing list is List.dedup; the loop body then reads
ijs[1][i], the column array indexed by the row value i, modelled with getD
(python raises IndexError when i is out of range; with a nonnegative
tolerance the diagonal guarantees at least one match per row, so the index
stays in bounds), and keeps the pair when that column is above i.  The kept
pairs are narrowed to those within 1e-3 of the least kept distance, and the
adjacency list starts as n empty lists and gains both endpoints of each
narrowed pair in order. -/
noncomputable def find_short_dist (coor : List V3) (lattice : M3) (tol : ℝ)
    (p : PBCFlags) : List (ℕ × ℕ × ℝ) × List (List ℕ) :=
  let n := coor.length
  let graph0 : List (List ℕ) := List.replicate n []
  let d := distance_matrix coor coor lattice p euclideanMetric
  let entry : ℕ → ℕ → ℝ := fun i j => (d.getD i []).getD j 0
  let matchPos : List (ℕ × ℕ) :=
    (List.range n).flatMap fun i =>
      (List.range n).filterMap fun j => if entry i j ≤ tol then some (i, j) else none
  let cols := matchPos.map Prod.snd
  let pairs : List (ℕ × ℕ × ℝ) :=
    ((matchPos.map Prod.fst).dedup).filterMap fun i =>
      if cols.getD i 0 ≤ i then none else some (i, cols.getD i 0, entry i (cols.getD i 0))
  if 0 < pairs.length then
    let dmin := listMinD (pairs.map fun pr => pr.2.2) + 1 / 1000
    let pairs2 := pairs.filter fun pr => pr.2.2 ≤ dmin
    let graph := pairs2.foldl (fun g pr =>
      let g1 := g.set pr.1 (g.getD pr.1 [] ++ [pr.2.1])
      g1.set pr.2.1 (g1.getD pr.2.1 [] ++ [pr.1])) graph0
    (pairs2, graph)
  else (pairs, graph0)

/-- Claim C4, evaluation at the failing input: three non periodic points on
the x axis at 0, 0.1 and 5 in the identity lattice with tolerance 0.15.
The pair (0, 1) has distance 0.1, within tolerance, so by the claim it
should be selected and connected in the graph; the code instead returns no
pairs at all and an all empty adjacency list, because it indexes the column
array of np.where by the row value rather than by match position. -/
theorem C4_find_short_dist_eval :
    ((distance_matrix [![0, 0, 0], ![1/10, 0, 0], ![5, 0, 0]]
        [![0, 0, 0], ![1/10, 0, 0], ![5, 0, 0]] 1 noPBC euclideanMetric).getD 0 []).getD 1 0
      ≤ 3/20 ∧
    find_short_dist [![0, 0, 0], ![1/10, 0, 0], ![5, 0, 0]] 1 (3/20) noPBC
      = ([], [[], [], []]) := by
  have e01 : euclideanMetric ![0, 0, 0] ![1/10, 0, 0] = 1/10 := by
    unfold euclideanMetric
    have h : ((![0, 0, 0] : V3) - ![1/10, 0, 0]) ⬝ᵥ ((![0, 0, 0] : V3) - ![1/10, 0, 0])
        = 1/100 := by
      simp [Matrix.dotProduct, Fin.sum_univ_three]
      norm_num
    rw [h]
    exact sqrt_eval (by norm_num) (by norm_num)
  have e02 : euclideanMetric ![0, 0, 0] ![5, 0, 0] = 5 := by
    unfold euclideanMetric
    have h : ((![0, 0, 0] : V3) - ![5, 0, 0]) ⬝ᵥ ((![0, 0, 0] : V3) - ![5, 0, 0]) = 25 := by
      simp [Matrix.dotProduct, Fin.sum_univ_three]
      norm_num
    rw [h]
    exact sqrt_eval (by norm_num) (by norm_num)
  have e12 : euclideanMetric ![1/10, 0, 0] ![5, 0, 0] = 49/10 := by
    unfold euclideanMetric
    have h : ((![1/10, 0, 0] : V3) - ![5, 0, 0]) ⬝ᵥ ((![1/10, 0, 0] : V3) - ![5, 0, 0])
        = 2401/100 := by
      simp [Matrix.dotProduct, Fin.sum_univ_three]
      norm_num
    rw [h]
    exact sqrt_eval (by norm_num) (by norm_num)
  have e10 : euclideanMetric ![1/10, 0, 0] ![0, 0, 0] = 1/10 := by
    rw [euclideanMetric_comm]; exact e01
  have e20 : euclideanMetric ![5, 0, 0] ![0, 0, 0] = 5 := by
    rw [euclideanMetric_comm]; exact e02
  have e21 : euclideanMetric ![5, 0, 0] ![1/10, 0, 0] = 49/10 := by
    rw [euclideanMetric_comm]; exact e12
  have hd : distance_matrix [![0, 0, 0], ![1/10, 0, 0], ![5, 0, 0]]
      [![0, 0, 0], ![1/10, 0, 0], ![5, 0, 0]] 1 noPBC euclideanMetric
      = [[0, 1/10, 5], [1/10, 0, 49/10], [5, 49/10, 0]] := by
    unfold distance_matrix
    rw [if_pos rfl, if_neg (by simp)]
    simp only [List.map_cons, List.map_nil]
    rw [euclideanMetric_self, euclideanMetric_self, euclideanMetric_self,
      e01, e02, e10, e12, e20, e21]
  constructor
  · rw [hd]
    norm_num
  · unfold find_short_dist
    rw [hd]
    norm_num [List.range_succ, List.filterMap_cons, List.dedup_cons_of_mem,
      List.dedup_cons_of_not_mem]
    have hm : ([0, 1, 0, 1, 2] : List ℕ)[1] = 1 := rfl
    rw [hm]
    norm_num
    rfl

/-- The numpy isclose test on scalars: abs(a - b) is at most atol plus rtol
times abs(b).  Numpy defaults are rtol = 1e-5 and atol = 1e-8. -/
def npIsClose (a b rtol atol : ℝ) : Prop := |a - b| ≤ atol + rtol * |b|

/-- The numpy allclose test on 3 by 3 matrices, entrywise npIsClose. -/
def allclose (A B : M3) (rtol atol : ℝ) : Prop :=
  ∀ i j : Fin 3, npIsClose (A i j) (B i j) rtol atol

/-- Translation of is_orthogonal (operations.py lines 567-584): both
products with the transpose must be allclose to the identity, with the
given relative tolerance and the numpy default absolute tolerance 1e-8. -/
def is_orthogonal (m : M3) (tol : ℝ) : Prop :=
  allclose (m * m.transpose) 1 tol (1 / 10 ^ 8) ∧
  allclose (m.transpose * m) 1 tol (1 / 10 ^ 8)

lemma allclose_self (A : M3) {rtol atol : ℝ} (hr : 0 ≤ rtol) (ha : 0 < atol) :
    allclose A A rtol atol := by
  intro i j
  unfold npIsClose
  have : |A i j - A i j| = 0 := by simp
  rw [this]
  positivity

lemma is_orthogonal_of_mul_transpose {m : M3} (h : m * m.transpose = 1) :
    is_orthogonal m (1 / 1000) := by
  have h2 : m.transpose * m = 1 := Matrix.mul_eq_one_comm.mp h
  refine ⟨?_, ?_⟩
  · rw [h]; exact allclose_self 1 (by norm_num) (by norm_num)
  · rw [h2]; exact allclose_self 1 (by norm_num) (by norm_num)

/-- Result type of the order search: the python function returns an integer
or the string irrational. -/
inductive OrderResult where
  | irrational : OrderResult
  | num : ℕ → OrderResult
deriving DecidableEq

/-- Linear search for the first n with start <= n < start + fuel satisfying
P, mirroring the for loop with break of get_order. -/
def searchFrom (P : ℕ → Prop) [DecidablePred P] : ℕ → ℕ → Option ℕ
  | _, 0 => none
  | n, fuel + 1 => if P n then some n else searchFrom P (n + 1) fuel

/-- Acceptance test of the loop in get_order: x = n * angle / (2 pi) is
within tol of np.round(x).  Numpy round is a nearest integer function and
abs(x - round(x)) does not depend on how ties are broken, so the Mathlib
round models it faithfully. -/
def orderAccept (angle tol : ℝ) (n : ℕ) : Prop :=
  |((n : ℝ) * angle) / (2 * Real.pi) - round (((n : ℝ) * angle) / (2 * Real.pi))| ≤ tol

open Classical in
/-- Translation of OperationAnalyzer.get_order (operations.py lines
727-746): for n from 1 to 60 accept the first n passing orderAccept.  On
success an odd n is doubled when rotoinversion is requested; when no n in
1..60 is accepted the sentinel irrational is returned. -/
noncomputable def get_order (angle : ℝ) (rotoinversion : Bool) (tol : ℝ) : OrderResult :=
  match searchFrom (orderAccept angle tol) 1 60 with
  | none => OrderResult.irrational
  | some n =>
    if rotoinversion = true then
      (if n % 2 = 1 then OrderResult.num (2 * n) else OrderResult.num n)
    else OrderResult.num n

lemma searchFrom_eq_none_iff (P : ℕ → Prop) [DecidablePred P] :
    ∀ fuel start, searchFrom P start fuel = none ↔
      ∀ k, start ≤ k → k < start + fuel → ¬ P k := by
  intro fuel
  induction fuel with
  | zero => intro start; simp [searchFrom]; omega
  | succ f ih =>
    intro start
    rw [searchFrom]
    by_cases h : P start
    · rw [if_pos h]
      simp only [reduceCtorEq, false_iff]
      push_neg
      exact ⟨start, le_refl _, by omega, h⟩
    · rw [if_neg h, ih (start + 1)]
      constructor
      · intro hall k hk1 hk2
        rcases Nat.eq_or_lt_of_le hk1 with rfl | hlt
        · exact h
        · exact hall k hlt (by omega)
      · intro hall k hk1 hk2
        exact hall k (by omega) (by omega)

lemma searchFrom_eq_some (P : ℕ → Prop) [DecidablePred P] :
    ∀ fuel start n, start ≤ n → n < start + fuel → P n →
      (∀ k, start ≤ k → k < n → ¬ P k) → searchFrom P start fuel = some n := by
  intro fuel
  induction fuel with
  | zero => intro start n h1 h2; omega
  | succ f ih =>
    intro start n h1 h2 hn hmin
    rw [searchFrom]
    rcases Nat.eq_or_lt_of_le h1 with rfl | hlt
    · rw [if_pos hn]
    · rw [if_neg (hmin start (le_refl _) hlt)]
      exact ih (start + 1) n hlt (by omega) hn fun k hk1 hk2 => hmin k (by omega) hk2

lemma searchFrom_some_facts (P : ℕ → Prop) [DecidablePred P] :
    ∀ fuel start n, searchFrom P start fuel = some n →
      start ≤ n ∧ n < start + fuel ∧ P n ∧ ∀ k, start ≤ k → k < n → ¬ P k := by
  intro fuel
  induction fuel with
  | zero => intro start n h; simp [searchFrom] at h
  | succ f ih =>
    intro start n h
    rw [searchFrom] at h
    by_cases hp : P start
    · rw [if_pos hp] at h
      have hn : start = n := Option.some.inj h
      subst hn
      exact ⟨le_refl _, by omega, hp, fun k hk1 hk2 => by omega⟩
    · rw [if_neg hp] at h
      obtain ⟨h1, h2, h3, h4⟩ := ih (start + 1) n h
      refine ⟨by omega, by omega, h3, ?_⟩
      intro k hk1 hk2
      rcases Nat.eq_or_lt_of_le hk1 with rfl | hlt
      · exact hp
      · exact h4 k hlt hk2

open Classical in
lemma get_order_of_none {angle tol : ℝ} (ri : Bool)
    (h : searchFrom (orderAccept angle tol) 1 60 = none) :
    get_order angle ri tol = OrderResult.irrational := by
  unfold get_order
  rw [h]

open Classical in
lemma get_order_of_some {angle tol : ℝ} (ri : Bool) {n : ℕ}
    (h : searchFrom (orderAccept angle tol) 1 60 = some n) :
    get_order angle ri tol =
      if ri = true then
        (if n % 2 = 1 then OrderResult.num (2 * n) else OrderResult.num n)
      else OrderResult.num n := by
  unfold get_order
  rw [h]

lemma near_int_iff (x tol : ℝ) :
    |x - round x| ≤ tol ↔ ∃ m : ℤ, |x - (m : ℝ)| ≤ tol := by
  constructor
  · intro h
    exact ⟨round x, h⟩
  · rintro ⟨m, hm⟩
    exact le_trans (round_le x m) hm

/-- Claim C3: get_order searches n from 1 to 60 and returns the smallest n
such that n times angle over 2 pi is within tol of an integer; with
rotoinversion true an odd smallest n is doubled and an even one returned as
is; when no n in 1..60 satisfies the tolerance the sentinel irrational is
returned. -/
theorem C3_get_order_spec (angle tol : ℝ) (ri : Bool) :
    (get_order angle ri tol = OrderResult.irrational ↔
      ∀ n : ℕ, 1 ≤ n → n ≤ 60 →
        ¬ ∃ m : ℤ, |((n : ℝ) * angle) / (2 * Real.pi) - (m : ℝ)| ≤ tol) ∧
    (∀ n : ℕ, 1 ≤ n → n ≤ 60 →
      (∃ m : ℤ, |((n : ℝ) * angle) / (2 * Real.pi) - (m : ℝ)| ≤ tol) →
      (∀ k : ℕ, 1 ≤ k → k < n →
        ¬ ∃ m : ℤ, |((k : ℝ) * angle) / (2 * Real.pi) - (m : ℝ)| ≤ tol) →
      get_order angle ri tol =
        (if ri = true ∧ n % 2 = 1 then OrderResult.num (2 * n) else OrderResult.num n)) := by
  classical
  have hbr : ∀ n : ℕ, orderAccept angle tol n ↔
      ∃ m : ℤ, |((n : ℝ) * angle) / (2 * Real.pi) - (m : ℝ)| ≤ tol := by
    intro n
    exact near_int_iff _ _
  constructor
  · constructor
    · intro h
      cases hs : searchFrom (orderAccept angle tol) 1 60 with
      | none =>
        intro n h1 h60
        rw [← hbr n]
        exact (searchFrom_eq_none_iff (orderAccept angle tol) 60 1).mp hs n h1 (by omega)
      | some k =>
        rw [get_order_of_some ri hs] at h
        by_cases hri : ri = true
        · rw [if_pos hri] at h
          by_cases hodd : k % 2 = 1
          · rw [if_pos hodd] at h; exact absurd h (by simp)
          · rw [if_neg hodd] at h; exact absurd h (by simp)
        · rw [if_neg hri] at h; exact absurd h (by simp)
    · intro hall
      refine get_order_of_none ri ?_
      rw [searchFrom_eq_none_iff]
      intro k hk1 hk2
      rw [hbr k]
      exact hall k hk1 (by omega)
  · intro n h1 h60 hacc hmin
    have hs : searchFrom (orderAccept angle tol) 1 60 = some n := by
      refine searchFrom_eq_some (orderAccept angle tol) 60 1 n h1 (by omega)
        ((hbr n).mpr hacc) ?_
      intro k hk1 hk2
      rw [hbr k]
      exact hmin k hk1 hk2
    rw [get_order_of_some ri hs]
    by_cases hri : ri = true
    · by_cases hodd : n % 2 = 1
      · rw [if_pos hri, if_pos hodd, if_pos ⟨hri, hodd⟩]
      · rw [if_pos hri, if_neg hodd, if_neg (by tauto)]
    · rw [if_neg hri, if_neg (by tauto)]

/-- Claim C10: whenever get_order with rotoinversion true returns an
integer, that integer is even: an odd smallest accepted n is doubled, an
even one is returned unchanged. -/
theorem C10_rotoinversion_order_even (angle tol : ℝ) (n : ℕ)
    (h : get_order angle true tol = OrderResult.num n) : n % 2 = 0 := by
  classical
  cases hs : searchFrom (orderAccept angle tol) 1 60 with
  | none =>
    rw [get_order_of_none true hs] at h
    exact absurd h (by simp)
  | some k =>
    rw [get_order_of_some true hs] at h
    rw [if_pos rfl] at h
    by_cases hodd : k % 2 = 1
    · rw [if_pos hodd] at h
      have : 2 * k = n := OrderResult.num.inj h
      omega
    · rw [if_neg hodd] at h
      have : k = n := OrderResult.num.inj h
      omega

/-- Witness for claim C10: at angle 0 the search accepts n = 1 (zero is an
integer multiple of 2 pi), which is odd, so the rotoinversion order is the
even number 2. -/
theorem C10_witness :
    get_order 0 true (1/100) = OrderResult.num 2 ∧ (2 : ℕ) % 2 = 0 := by
  classical
  have hacc : orderAccept 0 (1/100) 1 := by
    unfold orderAccept
    norm_num
  have hs : searchFrom (orderAccept 0 (1/100)) 1 60 = some 1 :=
    searchFrom_eq_some _ 60 1 1 (le_refl _) (by omega) hacc (fun k hk1 hk2 => by omega)
  have h2 : get_order 0 true (1/100) = OrderResult.num 2 := by
    rw [get_order_of_some true hs]
    norm_num
  exact ⟨h2, C10_rotoinversion_order_even 0 (1/100) 2 h2⟩

/-- The classification labels assigned by OperationAnalyzer. -/
inductive OpType where
  | general
  | identity
  | rotation
  | inversion
  | rotoinversion
  | degenerate
deriving DecidableEq

/-- The classification state an OperationAnalyzer carries after
construction: type, axis, angle, order, rotation_order and inverted.  A
field is none when the python constructor leaves it None or never assigns
it (the degenerate branch assigns only type, axis and angle). -/
structure Classification where
  type : OpType
  axis : Option V3
  angle : Option ℝ
  order : Option OrderResult
  rotation_order : Option OrderResult
  inverted : Option Bool

open Classical in
/-- Translation of the classification logic of OperationAnalyzer.__init__
(operations.py lines 768-823), for an input whose 3 by 3 linear part is m.
The scipy call Rotation.from_matrix(M).as_rotvec() is an external
capability and enters as the parameter rotvecOf; the determinant branch on
the negated matrix passes -1 * m to it exactly as the source does.  The
branches mirror the source: non orthogonal gives general; positive
determinant extracts the rotation vector of m, a squared norm below 1e-6
gives axis None and angle 0, otherwise angle is the norm and axis the unit
vector; np.isclose(angle, 0) (numpy defaults rtol 1e-5, atol 1e-8) selects
identity with order 1, else rotation with order get_order(angle) at the
default tolerance 1e-2; negative determinant does the same on the rotation
vector of -1 * m, selecting inversion with order 2 or rotoinversion with
the axis negated, order get_order(angle, rotoinversion=True) and
rotation_order get_order(angle); determinant zero gives degenerate. -/
noncomputable def analyze (rotvecOf : M3 → V3) (m : M3) : Classification :=
  if ¬ is_orthogonal m (1 / 1000) then
    { type := OpType.general, axis := none, angle := none, order := none,
      rotation_order := none, inverted := none }
  else if 0 < m.det then
    let rotvec := rotvecOf m
    let angle : ℝ :=
      if rotvec ⬝ᵥ rotvec < 1 / 10 ^ 6 then 0 else Real.sqrt (rotvec ⬝ᵥ rotvec)
    let axis : Option V3 :=
      if rotvec ⬝ᵥ rotvec < 1 / 10 ^ 6 then none
      else some fun i => rotvec i / Real.sqrt (rotvec ⬝ᵥ rotvec)
    if npIsClose angle 0 (1 / 10 ^ 5) (1 / 10 ^ 8) then
      { type := OpType.identity, axis := axis, angle := some angle,
        order := some (OrderResult.num 1), rotation_order := some (OrderResult.num 1),
        inverted := some false }
    else
      { type := OpType.rotation, axis := axis, angle := some angle,
        order := some (get_order angle false (1 / 100)),
        rotation_order := some (get_order angle false (1 / 100)),
        inverted := some false }
  else if m.det < 0 then
    let rotvec := rotvecOf ((-1 : ℝ) • m)
    let angle : ℝ :=
      if rotvec ⬝ᵥ rotvec < 1 / 10 ^ 6 then 0 else Real.sqrt (rotvec ⬝ᵥ rotvec)
    let axis : Option V3 :=
      if rotvec ⬝ᵥ rotvec < 1 / 10 ^ 6 then none
      else some fun i => rotvec i / Real.sqrt (rotvec ⬝ᵥ rotvec)
    if npIsClose angle 0 (1 / 10 ^ 5) (1 / 10 ^ 8) then
      { type := OpType.inversion, axis := axis, angle := some angle,
        order := some (OrderResult.num 2), rotation_order := some (OrderResult.num 1),
        inverted := some true }
    else
      { type := OpType.rotoinversion, axis := axis.map fun a => -a, angle := some angle,
        order := some (get_order angle true (1 / 100)),
        rotation_order := some (get_order angle false (1 / 100)),
        inverted := some true }
  else
    { type := OpType.degenerate, axis := none, angle := none, order := none,
      rotation_order := none, inverted := none }

/-- Translation of aa2matrix (operations.py lines 586-631) with the default
arguments radians=True and random=False: normalise the axis by its
euclidean norm and build the rotation matrix entry table of the source. -/
noncomputable def aa2matrix (axis : V3) (angle : ℝ) : M3 :=
  let nrm := Real.sqrt (axis ⬝ᵥ axis)
  let x := axis 0 / nrm
  let y := axis 1 / nrm
  let z := axis 2 / nrm
  let c := Real.cos angle
  let s := Real.sin angle
  let C := 1 - c
  Matrix.of ![![x * x * C + c, x * y * C - z * s, x * z * C + y * s],
              ![y * x * C + z * s, y * y * C + c, y * z * C - x * s],
              ![z * x * C - y * s, z * y * C + x * s, z * z * C + c]]

lemma aa2matrix_unit {u : V3} (θ : ℝ) (hu : u ⬝ᵥ u = 1) :
    aa2matrix u θ =
      Matrix.of ![![u 0 * u 0 * (1 - Real.cos θ) + Real.cos θ,
                    u 0 * u 1 * (1 - Real.cos θ) - u 2 * Real.sin θ,
                    u 0 * u 2 * (1 - Real.cos θ) + u 1 * Real.sin θ],
                  ![u 1 * u 0 * (1 - Real.cos θ) + u 2 * Real.sin θ,
                    u 1 * u 1 * (1 - Real.cos θ) + Real.cos θ,
                    u 1 * u 2 * (1 - Real.cos θ) - u 0 * Real.sin θ],
                  ![u 2 * u 0 * (1 - Real.cos θ) - u 1 * Real.sin θ,
                    u 2 * u 1 * (1 - Real.cos θ) + u 0 * Real.sin θ,
                    u 2 * u 2 * (1 - Real.cos θ) + Real.cos θ]] := by
  unfold aa2matrix
  rw [hu, Real.sqrt_one]
  simp

lemma dotProduct_expand {u : V3} (hu : u ⬝ᵥ u = 1) :
    u 0 ^ 2 + u 1 ^ 2 + u 2 ^ 2 = 1 := by
  have h := hu
  simp only [Matrix.dotProduct, Fin.sum_univ_three] at h
  linear_combination h

lemma aa2matrix_mul_transpose {u : V3} (θ : ℝ) (hu : u ⬝ᵥ u = 1) :
    aa2matrix u θ * (aa2matrix u θ).transpose = 1 := by
  have hu3 := dotProduct_expand hu
  have hs : Real.sin θ ^ 2 + Real.cos θ ^ 2 = 1 := Real.sin_sq_add_cos_sq θ
  rw [aa2matrix_unit θ hu]
  ext i j
  fin_cases i <;> fin_cases j <;>
    simp [Matrix.mul_apply, Fin.sum_univ_three, Matrix.transpose_apply, Matrix.one_apply,
      Matrix.vecHead, Matrix.vecTail]
  · linear_combination (Real.sin θ ^ 2 + u 0 ^ 2 * (1 - Real.cos θ) ^ 2) * hu3 +
      (1 - u 0 ^ 2) * hs
  · linear_combination (u 0 * u 1 * (1 - Real.cos θ) ^ 2) * hu3 + (-(u 0 * u 1)) * hs
  · linear_combination (u 0 * u 2 * (1 - Real.cos θ) ^ 2) * hu3 + (-(u 0 * u 2)) * hs
  · linear_combination (u 1 * u 0 * (1 - Real.cos θ) ^ 2) * hu3 + (-(u 1 * u 0)) * hs
  · linear_combination (Real.sin θ ^ 2 + u 1 ^ 2 * (1 - Real.cos θ) ^ 2) * hu3 +
      (1 - u 1 ^ 2) * hs
  · linear_combination (u 1 * u 2 * (1 - Real.cos θ) ^ 2) * hu3 + (-(u 1 * u 2)) * hs
  · linear_combination (u 2 * u 0 * (1 - Real.cos θ) ^ 2) * hu3 + (-(u 2 * u 0)) * hs
  · linear_combination (u 2 * u 1 * (1 - Real.cos θ) ^ 2) * hu3 + (-(u 2 * u 1)) * hs
  · linear_combination (Real.sin θ ^ 2 + u 2 ^ 2 * (1 - Real.cos θ) ^ 2) * hu3 +
      (1 - u 2 ^ 2) * hs

lemma aa2matrix_det {u : V3} (θ : ℝ) (hu : u ⬝ᵥ u = 1) :
    (aa2matrix u θ).det = 1 := by
  have hu3 := dotProduct_expand hu
  have hs : Real.sin θ ^ 2 + Real.cos θ ^ 2 = 1 := Real.sin_sq_add_cos_sq θ
  rw [aa2matrix_unit θ hu, Matrix.det_fin_three]
  simp only [Matrix.of_apply, Matrix.cons_val', Matrix.cons_val_zero, Matrix.cons_val_one,
    Matrix.head_cons, Matrix.empty_val', Matrix.cons_val_fin_one, Matrix.head_fin_const,
    Matrix.cons_val_two, Matrix.tail_cons, Fin.isValue]
  linear_combination ((1 - Real.cos θ) + Real.sin θ ^ 2 +
      (1 - Real.cos θ) * (Real.sin θ ^ 2 + Real.cos θ ^ 2 - 1) +
      (1 - Real.cos θ) * Real.sin θ ^ 2 * (u 0 ^ 2 + u 1 ^ 2 + u 2 ^ 2 - 1)) * hu3 +
    1 * hs

lemma round_eval {x : ℝ} (m : ℤ) (h1 : (m : ℝ) ≤ x + 1 / 2) (h2 : x + 1 / 2 < m + 1) :
    round x = m := by
  rw [round_eq]
  exact Int.floor_eq_iff.mpr ⟨h1, h2⟩

lemma get_order_pi_div_three :
    get_order (Real.pi / 3) false (1 / 100) = OrderResult.num 6 := by
  classical
  have key : ∀ n : ℕ, ((n : ℝ) * (Real.pi / 3)) / (2 * Real.pi) = (n : ℝ) / 6 := by
    intro n
    have hpi := Real.pi_ne_zero
    field_simp
    ring
  have r16 : round ((1 : ℝ) / 6) = 0 := round_eval 0 (by norm_num) (by norm_num)
  have r26 : round ((2 : ℝ) / 6) = 0 := round_eval 0 (by norm_num) (by norm_num)
  have r36 : round ((3 : ℝ) / 6) = 1 := round_eval 1 (by norm_num) (by norm_num)
  have r46 : round ((4 : ℝ) / 6) = 1 := round_eval 1 (by norm_num) (by norm_num)
  have r56 : round ((5 : ℝ) / 6) = 1 := round_eval 1 (by norm_num) (by norm_num)
  have hs : searchFrom (orderAccept (Real.pi / 3) (1 / 100)) 1 60 = some 6 := by
    refine searchFrom_eq_some _ 60 1 6 (by omega) (by omega) ?_ ?_
    · unfold orderAccept
      rw [key 6]
      have h66 : ((6 : ℕ) : ℝ) / 6 = 1 := by norm_num
      rw [h66, round_one]
      norm_num
    · intro k hk1 hk2
      unfold orderAccept
      rw [key k]
      interval_cases k
      · have hc : ((1 : ℕ) : ℝ) = 1 := by norm_num
        rw [hc, r16]
        norm_num [abs_of_pos]
      · have hc : ((2 : ℕ) : ℝ) = 2 := by norm_num
        rw [hc, r26]
        norm_num [abs_of_pos]
      · have hc : ((3 : ℕ) : ℝ) = 3 := by norm_num
        rw [hc, r36]
        norm_num [abs_of_pos]
      · have hc : ((4 : ℕ) : ℝ) = 4 := by norm_num
        rw [hc, r46]
        norm_num [abs_of_pos]
      · have hc : ((5 : ℕ) : ℝ) = 5 := by norm_num
        rw [hc, r56]
        norm_num [abs_of_pos]
  rw [get_order_of_some false hs]
  norm_num

/-- Claim C2: with the scipy rotation vector extraction specified on the
inputs in question (zero vector for the identity rotation, angle times unit
axis for the axis angle rotation by pi over 3), classifying the identity
matrix yields type identity with order 1 and angle 0; classifying minus the
identity yields type inversion with order 2; and classifying the rotation
matrix by pi over 3 about any unit axis yields type rotation, order 6 and
angle pi over 3, which is within 1e-4 of 1.0472 radians. -/
theorem C2_classification_examples (rv : M3 → V3) (u : V3)
    (h1 : rv 1 = 0) (hu : u ⬝ᵥ u = 1)
    (hrv : rv (aa2matrix u (Real.pi / 3)) = (Real.pi / 3) • u) :
    analyze rv 1 = { type := OpType.identity, axis := none, angle := some 0,
                     order := some (OrderResult.num 1),
                     rotation_order := some (OrderResult.num 1),
                     inverted := some false } ∧
    analyze rv (-1) = { type := OpType.inversion, axis := none, angle := some 0,
                        order := some (OrderResult.num 2),
                        rotation_order := some (OrderResult.num 1),
                        inverted := some true } ∧
    (analyze rv (aa2matrix u (Real.pi / 3))).type = OpType.rotation ∧
    (analyze rv (aa2matrix u (Real.pi / 3))).order = some (OrderResult.num 6) ∧
    (analyze rv (aa2matrix u (Real.pi / 3))).angle = some (Real.pi / 3) ∧
    |Real.pi / 3 - 10472 / 10000| < 1 / 10 ^ 4 := by
  classical
  have hzero_small : ((0 : V3) ⬝ᵥ (0 : V3)) < 1 / 10 ^ 6 := by
    simp
  have hclose0 : npIsClose 0 0 (1 / 10 ^ 5) (1 / 10 ^ 8) := by
    unfold npIsClose
    norm_num
  have hid : analyze rv 1 = { type := OpType.identity, axis := none, angle := some 0,
                              order := some (OrderResult.num 1),
                              rotation_order := some (OrderResult.num 1),
                              inverted := some false } := by
    have hortho : is_orthogonal (1 : M3) (1 / 1000) :=
      is_orthogonal_of_mul_transpose (by simp)
    have hdet : (0 : ℝ) < (1 : M3).det := by simp
    simp only [analyze]
    rw [if_neg (not_not_intro hortho), if_pos hdet, h1]
    simp only [if_pos hzero_small, if_pos hclose0]
  have hinv : analyze rv (-1) = { type := OpType.inversion, axis := none,
                                  angle := some 0,
                                  order := some (OrderResult.num 2),
                                  rotation_order := some (OrderResult.num 1),
                                  inverted := some true } := by
    have hortho : is_orthogonal (-1 : M3) (1 / 1000) := by
      refine is_orthogonal_of_mul_transpose ?_
      rw [Matrix.transpose_neg, Matrix.transpose_one]
      simp
    have hdetneg : (-1 : M3).det = -1 := by
      rw [show (-1 : M3) = -(1 : M3) from rfl, Matrix.det_neg]
      simp
      norm_num
    have hndet : ¬ (0 : ℝ) < (-1 : M3).det := by rw [hdetneg]; norm_num
    have hdet2 : (-1 : M3).det < 0 := by rw [hdetneg]; norm_num
    have hsm : ((-1 : ℝ) • (-1 : M3)) = 1 := by
      rw [neg_one_smul]
      exact neg_neg 1
    simp only [analyze]
    rw [if_neg (not_not_intro hortho), if_neg hndet, if_pos hdet2, hsm, h1]
    simp only [if_pos hzero_small, if_pos hclose0]
  have hdotQ : ((Real.pi / 3) • u) ⬝ᵥ ((Real.pi / 3) • u) = (Real.pi / 3) ^ 2 := by
    rw [Matrix.smul_dotProduct, Matrix.dotProduct_smul, hu]
    simp [smul_eq_mul]
    ring
  have hpi3pos : (0 : ℝ) < Real.pi / 3 := by
    have := Real.pi_pos
    linarith
  have hnotsmall : ¬ ((Real.pi / 3) ^ 2 < 1 / 10 ^ 6) := by
    have h3 := Real.pi_gt_three
    nlinarith
  have hsqrtQ : Real.sqrt ((Real.pi / 3) ^ 2) = Real.pi / 3 :=
    Real.sqrt_sq hpi3pos.le
  have hnclose : ¬ npIsClose (Real.pi / 3) 0 (1 / 10 ^ 5) (1 / 10 ^ 8) := by
    unfold npIsClose
    rw [sub_zero, abs_of_pos hpi3pos]
    have h3 := Real.pi_gt_three
    intro hcon
    norm_num at hcon
    linarith
  have hrot : analyze rv (aa2matrix u (Real.pi / 3)) =
      { type := OpType.rotation,
        axis := some fun i => ((Real.pi / 3) • u) i / (Real.pi / 3),
        angle := some (Real.pi / 3),
        order := some (get_order (Real.pi / 3) false (1 / 100)),
        rotation_order := some (get_order (Real.pi / 3) false (1 / 100)),
        inverted := some false } := by
    have hortho : is_orthogonal (aa2matrix u (Real.pi / 3)) (1 / 1000) :=
      is_orthogonal_of_mul_transpose (aa2matrix_mul_transpose (Real.pi / 3) hu)
    have hdet : (0 : ℝ) < (aa2matrix u (Real.pi / 3)).det := by
      rw [aa2matrix_det (Real.pi / 3) hu]
      norm_num
    simp only [analyze]
    rw [if_neg (not_not_intro hortho), if_pos hdet, hrv, hdotQ]
    rw [if_neg hnotsmall, if_neg hnotsmall, hsqrtQ]
    rw [if_neg hnclose]
  refine ⟨hid, hinv, ?_, ?_, ?_, ?_⟩
  · rw [hrot]
  · rw [hrot]
    rw [get_order_pi_div_three]
  · rw [hrot]
  · have hgt := Real.pi_gt_d6
    have hlt := Real.pi_lt_d6
    norm_num at hgt hlt
    rw [abs_sub_lt_iff]
    constructor <;> [linarith; linarith]

open Classical in
/-- Concrete rotation vector extraction used to witness claim C2: it
returns pi over 3 times the x axis on the rotation matrix about the x axis
by pi over 3, and the zero vector on every other matrix, which agrees with
the scipy contract on the matrices the claim classifies. -/
noncomputable def rv0 : M3 → V3 :=
  fun m =>
    if m = aa2matrix ![1, 0, 0] (Real.pi / 3) then (Real.pi / 3) • ![(1 : ℝ), 0, 0]
    else 0

lemma rv0_unit : (![(1 : ℝ), 0, 0] : V3) ⬝ᵥ ![(1 : ℝ), 0, 0] = 1 := by
  norm_num [Matrix.dotProduct, Fin.sum_univ_three]

lemma one_ne_rotx : (1 : M3) ≠ aa2matrix ![1, 0, 0] (Real.pi / 3) := by
  rw [aa2matrix_unit (Real.pi / 3) rv0_unit]
  intro h
  have h11 := congrFun (congrFun h 1) 1
  simp [Matrix.one_apply, Real.cos_pi_div_three] at h11

lemma rv0_one : rv0 1 = 0 := by
  unfold rv0
  rw [if_neg one_ne_rotx]

lemma rv0_rot :
    rv0 (aa2matrix ![1, 0, 0] (Real.pi / 3)) = (Real.pi / 3) • ![(1 : ℝ), 0, 0] := by
  unfold rv0
  rw [if_pos rfl]

/-- Witness for claim C2 at the concrete extraction rv0 and the unit axis
(1,0,0). -/
theorem C2_witness :
    analyze rv0 1 = { type := OpType.identity, axis := none, angle := some 0,
                      order := some (OrderResult.num 1),
                      rotation_order := some (OrderResult.num 1),
                      inverted := some false } ∧
    analyze rv0 (-1) = { type := OpType.inversion, axis := none, angle := some 0,
                         order := some (OrderResult.num 2),
                         rotation_order := some (OrderResult.num 1),
                         inverted := some true } ∧
    (analyze rv0 (aa2matrix ![1, 0, 0] (Real.pi / 3))).type = OpType.rotation ∧
    (analyze rv0 (aa2matrix ![1, 0, 0] (Real.pi / 3))).order = some (OrderResult.num 6) ∧
    (analyze rv0 (aa2matrix ![1, 0, 0] (Real.pi / 3))).angle = some (Real.pi / 3) ∧
    |Real.pi / 3 - 10472 / 10000| < 1 / 10 ^ 4 :=
  C2_classification_examples rv0 ![1, 0, 0] rv0_one rv0_unit rv0_rot

lemma analyze_angle_pos (rv : M3 → V3) (m : M3)
    (h : (analyze rv m).type = OpType.rotation ∨ (analyze rv m).type = OpType.rotoinversion) :
    ∃ θ : ℝ, (analyze rv m).angle = some θ ∧ 0 < θ := by
  classical
  have hcl : npIsClose 0 0 (1 / 10 ^ 5) (1 / 10 ^ 8) := by unfold npIsClose; norm_num
  simp only [analyze] at h ⊢
  split_ifs at h ⊢ with c1 c2 c3 c4 c5 c6 c7
  all_goals try (exact absurd h (by decide))
  · refine ⟨Real.sqrt (rv m ⬝ᵥ rv m), rfl, Real.sqrt_pos.mpr ?_⟩
    push_neg at c3
    exact lt_of_lt_of_le (by norm_num) c3
  · refine ⟨Real.sqrt (rv ((-1 : ℝ) • m) ⬝ᵥ rv ((-1 : ℝ) • m)), rfl, Real.sqrt_pos.mpr ?_⟩
    push_neg at c6
    exact lt_of_lt_of_le (by norm_num) c6

open Classical in
/-- Translation of OperationAnalyzer.is_conjugate (operations.py lines
842-875) in the branch where the compared object is already an analyzer.
When the types match, a rotation or rotoinversion pair is tested with
np.isclose(self.angle / op2.angle, 1, atol=1e-2) (numpy default rtol 1e-5),
returning True on success; an identity or inversion pair returns True; in
every remaining matching case, and when the closeness test fails, python
falls off the end of the method and returns None, modelled by none.  When
the types differ False is returned.  A classified rotation always carries
an angle, so the getD default is never read in the reachable cases. -/
noncomputable def is_conjugate (a b : Classification) : Option Bool :=
  if b.type = a.type then
    if a.type = OpType.rotation ∨ a.type = OpType.rotoinversion then
      (if npIsClose (a.angle.getD 0 / b.angle.getD 0) 1 (1 / 10 ^ 5) (1 / 100)
       then some true else none)
    else if a.type = OpType.identity ∨ a.type = OpType.inversion then some true
    else none
  else some false

/-- Claim C7: for classified operations, is_conjugate returns False when
the two types differ; returns True when both are identities or both are
inversions; and for two rotations or two rotoinversions it returns True
exactly when the absolute value of the angle ratio passes the isclose test
against 1 with absolute tolerance 1e-2 (and the numpy default relative
tolerance 1e-5). -/
theorem C7_is_conjugate_spec (rv : M3 → V3) (m1 m2 : M3) :
    ((analyze rv m1).type ≠ (analyze rv m2).type →
      is_conjugate (analyze rv m1) (analyze rv m2) = some false) ∧
    ((analyze rv m1).type = (analyze rv m2).type →
      ((analyze rv m1).type = OpType.identity ∨ (analyze rv m1).type = OpType.inversion) →
      is_conjugate (analyze rv m1) (analyze rv m2) = some true) ∧
    ((analyze rv m1).type = (analyze rv m2).type →
      ((analyze rv m1).type = OpType.rotation ∨ (analyze rv m1).type = OpType.rotoinversion) →
      (is_conjugate (analyze rv m1) (analyze rv m2) = some true ↔
        npIsClose |(analyze rv m1).angle.getD 0 / (analyze rv m2).angle.getD 0| 1
          (1 / 10 ^ 5) (1 / 100))) := by
  classical
  refine ⟨?_, ?_, ?_⟩
  · intro hne
    unfold is_conjugate
    rw [if_neg (fun hba => hne hba.symm)]
  · intro heq hid
    have hnotrot : ¬((analyze rv m1).type = OpType.rotation ∨
        (analyze rv m1).type = OpType.rotoinversion) := by
      rcases hid with h | h <;> rw [h] <;> decide
    unfold is_conjugate
    rw [if_pos heq.symm, if_neg hnotrot, if_pos hid]
  · intro heq hrot
    obtain ⟨ta, hta, hposa⟩ := analyze_angle_pos rv m1 hrot
    have hrotb : (analyze rv m2).type = OpType.rotation ∨
        (analyze rv m2).type = OpType.rotoinversion := by
      rcases hrot with h | h
      · exact Or.inl (heq ▸ h)
      · exact Or.inr (heq ▸ h)
    obtain ⟨tb, htb, hposb⟩ := analyze_angle_pos rv m2 hrotb
    unfold is_conjugate
    rw [if_pos heq.symm, if_pos hrot, hta, htb]
    simp only [Option.getD_some]
    rw [abs_of_pos (div_pos hposa hposb)]
    by_cases hc : npIsClose (ta / tb) 1 (1 / 10 ^ 5) (1 / 100)
    · rw [if_pos hc]
      exact iff_of_true rfl hc
    · rw [if_neg hc]
      exact iff_of_false (by simp) hc

/-- Python exception raised when an attribute access fails. -/
inductive PyExc where
  | attributeError : PyExc
deriving DecidableEq

/-- The argument given to the OperationAnalyzer constructor: a SymmOp (its
rotation part and translation), a numpy array of shape 3 by 3, a numpy
array of some other shape, or any other object. -/
inductive OpArg where
  | symmOp : M3 → V3 → OpArg
  | ndarray33 : M3 → OpArg
  | ndarrayOther : OpArg
  | otherInput : OpArg

/-- Translation of OperationAnalyzer.__init__ (operations.py lines
748-823) as a whole: the returned pair is the list of printx advisories
emitted (message and priority) and either the classification state or the
exception the constructor raises.  For a SymmOp or a 3 by 3 array the
attribute self.m is assigned and classification proceeds (the analyze
function above).  For any other input the attribute self.m is never
assigned: for a non array input the else branch first calls
printx(priority=1), a non fatal warning, and in every malformed case
execution then continues to is_orthogonal(self.m), which raises
AttributeError because self.m does not exist. -/
noncomputable def analyzerInit (rotvecOf : M3 → V3) :
    OpArg → List (String × ℕ) × Except PyExc Classification
  | OpArg.symmOp m _ => ([], Except.ok (analyze rotvecOf m))
  | OpArg.ndarray33 m => ([], Except.ok (analyze rotvecOf m))
  | OpArg.ndarrayOther => ([], Except.error PyExc.attributeError)
  | OpArg.otherInput =>
      ([("Error: OperationAnalyzer requires a SymmOp or 3x3 array.", 1)],
        Except.error PyExc.attributeError)

/-- Claim C9, evaluation at the failing input: constructing the analyzer
from an input that is neither a SymmOp nor a 3 by 3 array emits the
priority 1 advisory but then raises AttributeError instead of completing
with an unclassified object, because the constructor falls through to
is_orthogonal(self.m) with self.m never assigned. -/
theorem C9_malformed_input_eval (rotvecOf : M3 → V3) :
    analyzerInit rotvecOf OpArg.otherInput =
      ([("Error: OperationAnalyzer requires a SymmOp or 3x3 array.", 1)],
        Except.error PyExc.attributeError) ∧
    ∀ c : Classification, (analyzerInit rotvecOf OpArg.otherInput).2 ≠ Except.ok c := by
  refine ⟨rfl, ?_⟩
  intro c h
  exact Except.noConfusion h

/-- A rigid motion as a SymmOp exposes it: 3 by 3 rotation part and a
translation vector. -/
structure SymmOpT where
  rotation_matrix : M3
  translation_vector : V3

open Classical in
/-- Translation of the PBC = [0,0,0] branch of project_point
(operations.py lines 477-489), the branch the claim cites.  The statement
point -= translation subtracts the translation from the caller supplied
numpy array in place, so the function is modelled as returning both the
projection result and the final contents of the point argument (the second
component).  The loop sums, over the rows of the transposed rotation
matrix whose norm is not isclose to 0, the basis vector scaled by the dot
product with the shifted point over the squared norm, and the translation
is added back to the projection only. -/
noncomputable def project_point_no_pbc (point : V3) (op : SymmOpT) : V3 × V3 :=
  let p2 := point - op.translation_vector
  let new_vector :=
    (List.finRange 3).foldl
      (fun acc col =>
        let bv : V3 := fun r => op.rotation_matrix.transpose col r
        let b := Real.sqrt (bv ⬝ᵥ bv)
        if ¬ npIsClose b 0 (1 / 10 ^ 5) (1 / 10 ^ 8) then
          acc + (p2 ⬝ᵥ bv / b ^ 2) • bv
        else acc)
      0
  (new_vector + op.translation_vector, p2)

open Classical in
/-- Translation of the axis normalisation performed by
OperationAnalyzer.__str__ (operations.py lines 824-840): rendering the
summary writes 0 into every stored axis component that is isclose to 0,
mutating the classification state; the function returns the state after
rendering.  The rendered text itself is external string formatting, out of
scope of the engine. -/
noncomputable def strRender (c : Classification) : Classification :=
  { c with axis := c.axis.map fun a => fun i =>
      if npIsClose (a i) 0 (1 / 10 ^ 5) (1 / 10 ^ 8) then 0 else a i }

/-- Counterexample for claim C6 as stated: with the identity rotation and
translation (1,0,0), project_point on the point (0,0,0) leaves the caller
array at (-1,0,0), not unchanged; and rendering a classification whose
axis has the component 1e-10 overwrites that component with 0, changing
the axis field. -/
theorem C6_mutation_counterexample :
    (project_point_no_pbc ![0, 0, 0] ⟨1, ![1, 0, 0]⟩).2 ≠ ![0, 0, 0] ∧
    (strRender ⟨OpType.rotation, some ![1 / 10 ^ 10, 0, 1], some 1,
        some (OrderResult.num 6), some (OrderResult.num 6), some false⟩).axis ≠
      some ![1 / 10 ^ 10, 0, 1] := by
  constructor
  · intro h
    have h0 := congrFun h 0
    simp [project_point_no_pbc] at h0
  · intro h
    unfold strRender at h
    simp only [Option.map_some'] at h
    have h2 := congrFun (Option.some.inj h) 0
    have hcl : npIsClose ((![1 / 10 ^ 10, 0, 1] : V3) 0) 0 (1 / 10 ^ 5) (1 / 10 ^ 8) := by
      unfold npIsClose
      norm_num [abs_of_pos]
    rw [if_pos hcl] at h2
    have h3 : (0 : ℝ) = 1 / 10 ^ 10 := by simpa using h2
    norm_num at h3

open Classical in
/-- Claim C6, amended: the non periodic branch of project_point leaves its
point argument shifted by minus the translation of the operation, so the
argument is unchanged exactly when the translation is zero; and rendering
the summary replaces the axis components isclose to 0 by exactly 0, so the
axis field is unchanged exactly when all such components are already 0. -/
theorem C6_mutation_characterization (point : V3) (op : SymmOpT) (c : Classification) :
    (project_point_no_pbc point op).2 = point - op.translation_vector ∧
    ((project_point_no_pbc point op).2 = point ↔ op.translation_vector = 0) ∧
    (strRender c).axis = c.axis.map (fun a => fun i =>
      if npIsClose (a i) 0 (1 / 10 ^ 5) (1 / 10 ^ 8) then 0 else a i) ∧
    ((strRender c).axis = c.axis ↔
      ∀ a : V3, c.axis = some a → ∀ i : Fin 3,
        npIsClose (a i) 0 (1 / 10 ^ 5) (1 / 10 ^ 8) → a i = 0) := by
  classical
  refine ⟨rfl, ?_, rfl, ?_⟩
  · show point - op.translation_vector = point ↔ op.translation_vector = 0
    exact sub_eq_self
  · unfold strRender
    cases hax : c.axis with
    | none => simp [hax]
    | some a =>
      simp only [hax, Option.map_some']
      constructor
      · intro hl a2 ha2 i hP
        have ha2a : a2 = a := (Option.some.inj ha2).symm
        subst ha2a
        have hi := congrFun (Option.some.inj hl) i
        rw [if_pos hP] at hi
        exact hi.symm
      · intro hr
        refine congrArg some (funext fun i => ?_)
        by_cases hP : npIsClose (a i) 0 (1 / 10 ^ 5) (1 / 10 ^ 8)
        · rw [if_pos hP]
          exact (hr a rfl i hP).symm
        · rw [if_neg hP]
